import Mathlib

/-!
Verification of the path-aggregation and edge-group segmentation logic of
`src/app/path.py` together with the coordinate helpers of
`src/utils/geometry.py`, as a shallow embedding in Lean.

Numbers that the Python code treats as floats are modelled as rationals;
the builtin `round(x, n)` of Python (round-half-to-even at `n` decimal
digits) is modelled by `pyround`.  The Python value `None` is modelled by
`Option.none`.
-/

namespace HopePath

/-- Round-half-to-even to the nearest integer, as Python `round` does. -/
def roundHalfEven (x : ℚ) : ℤ :=
  let f : ℤ := Int.floor x
  let frac : ℚ := x - f
  if frac < 1/2 then f
  else if frac > 1/2 then f + 1
  else if f % 2 = 0 then f else f + 1

/-- Python `round(x, n)`: round-half-to-even at `n` decimal digits. -/
def pyround (x : ℚ) (n : ℕ) : ℚ :=
  (roundHalfEven (x * 10 ^ n) : ℚ) / 10 ^ n

/-- A noise-exposure mapping of one edge (decibel band to exposure),
corresponding to the `noises` dict of an edge. -/
def Noises := List (ℤ × ℚ)
deriving DecidableEq

/-- One edge of a path, with the attributes `path.py` reads
(`app.types.PathEdge` collaborator). -/
structure PathEdge where
  coords : List (ℚ × ℚ)
  coords_wgs : List (ℚ × ℚ)
  length : ℚ
  length_b : ℚ
  noises : Option Noises
  aqi : Option ℚ
  aqi_cl : ℤ
  db_range : ℤ
deriving DecidableEq

/-- Modelled from the spec: the path-type enum of `app.constants`
(at least a shortest variant and green variants), absent from src. -/
inductive PathType where
  | short
  | clean
  | quiet
deriving DecidableEq

/-- Modelled from the spec: the string tag of a path type. -/
def PathType.value : PathType → String
  | .short => "short"
  | .clean => "clean"
  | .quiet => "quiet"

/-- A GeoJSON property value (Python dict values used by `path.py`). -/
inductive PVal where
  | num (q : ℚ)
  | str (s : String)
  | bool (b : Bool)
  | null
deriving DecidableEq

/-- Turn an optional rational into a property value, as serializing
a possibly-`None` Python float attribute does. -/
def optQ : Option ℚ → PVal
  | none => PVal.null
  | some q => PVal.num q

/-- Modelled from the spec: the noise summary object produced by the
external factory `create_path_noise_attrs` (`app.path_noise_attrs`,
absent from src); it only exposes a properties dict. -/
structure PathNoiseAttrs where
  props : List (String × PVal)
deriving DecidableEq

/-- Modelled from the spec: the air-quality summary object produced by
the external factory `create_aqi_attrs` (`app.path_aqi_attrs`, absent
from src); it only exposes a properties dict. -/
structure PathAqiAttrs where
  props : List (String × PVal)
deriving DecidableEq

/-- The mutable state of a `Path` instance (`Path.__init__` fields,
plus `length_b` which Python only creates in `aggregate_path_attrs`). -/
structure Path where
  orig_node : ℤ
  edge_ids : List ℤ
  edges : List PathEdge
  edge_groups : List (ℤ × List PathEdge)
  name : String
  path_type : PathType
  cost_coeff : ℚ
  geometry : Option (List (ℚ × ℚ))
  length : Option ℚ
  length_b : Option ℚ
  len_diff : ℚ
  len_diff_rat : Option ℚ
  missing_aqi : Bool
  missing_noises : Bool
  noise_attrs : Option PathNoiseAttrs
  aqi_attrs : Option PathAqiAttrs
deriving DecidableEq

/-- `Path.__init__(orig_node, edge_ids, name, path_type, cost_coeff)`. -/
def Path.init (orig_node : ℤ) (edge_ids : List ℤ) (name : String)
    (path_type : PathType) (cost_coeff : ℚ := 0) : Path :=
  { orig_node := orig_node
    edge_ids := edge_ids
    edges := []
    edge_groups := []
    name := name
    path_type := path_type
    cost_coeff := cost_coeff
    geometry := none
    length := none
    length_b := none
    len_diff := 0
    len_diff_rat := none
    missing_aqi := false
    missing_noises := false
    noise_attrs := none
    aqi_attrs := none }

/-- `Path.aggregate_path_attrs`: merged geometry, the two rounded length
sums, and the two missing-data flags. -/
def Path.aggregate_path_attrs (p : Path) : Path :=
  { p with
    geometry := some (p.edges.flatMap (·.coords))
    length := some (pyround ((p.edges.map (·.length)).sum) 2)
    length_b := some (pyround ((p.edges.map (·.length_b)).sum) 2)
    missing_noises := (p.edges.map (·.noises)).contains none
    missing_aqi := (p.edges.map (·.aqi)).contains none }

/-- `Path.set_noise_attrs(db_costs)`; the external factory
`create_path_noise_attrs` is passed in as a function argument. -/
def Path.set_noise_attrs
    (create_path_noise_attrs : List (Option Noises) → List (ℤ × ℚ) → Option ℚ → PathNoiseAttrs)
    (db_costs : List (ℤ × ℚ)) (p : Path) : Path :=
  if p.missing_noises then p
  else
    { p with
      noise_attrs :=
        some (create_path_noise_attrs (p.edges.map (·.noises)) db_costs p.length) }

/-- `Path.set_aqi_attrs`; the external factory `create_aqi_attrs` is
passed in as a function argument. -/
def Path.set_aqi_attrs
    (create_aqi_attrs : List (Option ℚ × ℚ) → Option ℚ → PathAqiAttrs)
    (p : Path) : Path :=
  if p.missing_aqi then p
  else
    { p with
      aqi_attrs :=
        some (create_aqi_attrs (p.edges.map (fun e => (e.aqi, e.length))) p.length) }

/-- `Path.set_green_path_diff_attrs(shortest_path)`.  The diff mutators
of the two external summary objects are passed in as functions; the
Python code reads `self.length` and `shortest_path.length`, which must
both be set (a `TypeError` otherwise); outside that domain the state is
returned unchanged. -/
def Path.set_green_path_diff_attrs
    (noiseDiff : PathNoiseAttrs → PathNoiseAttrs → ℚ → PathNoiseAttrs)
    (aqiDiff : PathAqiAttrs → PathAqiAttrs → ℚ → PathAqiAttrs)
    (p : Path) (shortest_path : Path) : Path :=
  match p.length, shortest_path.length with
  | some l, some sl =>
    let len_diff := pyround (l - sl) 1
    let len_diff_rat : ℚ := if sl > 0 then pyround (len_diff / sl * 100) 1 else 0
    let noise_attrs :=
      match p.noise_attrs, shortest_path.noise_attrs with
      | some na, some sna => some (noiseDiff na sna len_diff)
      | na, _ => na
    let aqi_attrs :=
      match p.aqi_attrs, shortest_path.aqi_attrs with
      | some aa, some saa => some (aqiDiff aa saa len_diff)
      | aa, _ => aa
    { p with
      len_diff := len_diff
      len_diff_rat := some len_diff_rat
      noise_attrs := noise_attrs
      aqi_attrs := aqi_attrs }
  | _, _ => p

/-- The discretized value of an edge for the chosen dimension:
`edge.aqi_cl if aq else edge.db_range`. -/
def edgeValue (aq : Bool) (e : PathEdge) : ℤ :=
  if aq then e.aqi_cl else e.db_range

/-- The scan loop of `Path.aggregate_edge_groups_by_attr`: walks the
edge list carrying the current group buffer `cur_group`, the current
group value `cur_group_id` and the groups appended so far; after the
scan the final buffer is appended unconditionally. -/
def groupScan (aq : Bool) : List PathEdge → List PathEdge → ℤ →
    List (ℤ × List PathEdge) → List (ℤ × List PathEdge)
  | [], cur_group, cur_group_id, acc => acc ++ [(cur_group_id, cur_group)]
  | e :: rest, cur_group, cur_group_id, acc =>
    let value := edgeValue aq e
    if value = cur_group_id then
      groupScan aq rest (cur_group ++ [e]) cur_group_id acc
    else
      let acc := if cur_group = [] then acc else acc ++ [(cur_group_id, cur_group)]
      groupScan aq rest [e] value acc

/-- `Path.aggregate_edge_groups_by_attr(aq, noise)`: validates the two
boolean selectors, then appends the groups of the scan (started with an
empty buffer and sentinel value 0) to the existing `edge_groups`. -/
def Path.aggregate_edge_groups_by_attr (aq noise : Bool) (p : Path) :
    Except String Path :=
  if aq == noise || (!aq && !noise) then
    Except.error "Group edges by either aq or noise, not both or neither"
  else
    Except.ok { p with edge_groups := groupScan aq p.edges [] 0 p.edge_groups }

/-- `round_coordinates` of `src/utils/geometry.py`. -/
def round_coordinates (coords_list : List (ℚ × ℚ)) (digits : ℕ := 6) :
    List (ℚ × ℚ) :=
  coords_list.map (fun coords => (pyround coords.1 digits, pyround coords.2 digits))

/-- `Path.__get_geojson_feature_dict(coords)`: a GeoJSON feature shell
with empty properties and a LineString geometry. -/
structure GeoJsonFeature where
  type : String
  properties : List (String × PVal)
  geometry_type : String
  geometry_coordinates : List (ℚ × ℚ)
deriving DecidableEq

def Path.get_geojson_feature_dict (_p : Path) (coords : List (ℚ × ℚ)) :
    GeoJsonFeature :=
  { type := "Feature"
    properties := []
    geometry_type := "LineString"
    geometry_coordinates := coords }

/-- Lookup in a Python dict modelled as an association list where a key
bound several times takes its last binding (the `{**a, **b}` merge is
list append under this lookup). -/
def dictLookup (l : List (String × PVal)) (k : String) : Option PVal :=
  l.foldl (fun acc kv => if kv.1 = k then some kv.2 else acc) none

/-- The noise properties merged by `get_as_geojson_feature`:
`self.noise_attrs.get_noise_props_dict() if self.noise_attrs else {}`. -/
def Path.noiseProps (p : Path) : List (String × PVal) :=
  match p.noise_attrs with
  | some na => na.props
  | none => []

/-- The aqi properties merged by `get_as_geojson_feature`. -/
def Path.aqiProps (p : Path) : List (String × PVal) :=
  match p.aqi_attrs with
  | some aa => aa.props
  | none => []

/-- `Path.get_as_geojson_feature`. -/
def Path.get_as_geojson_feature (p : Path) : GeoJsonFeature :=
  let wgs_coords := round_coordinates (p.edges.flatMap (·.coords_wgs)) 6
  let feature_d := p.get_geojson_feature_dict wgs_coords
  let props : List (String × PVal) :=
    [ ("type", PVal.str p.path_type.value),
      ("id", PVal.str p.name),
      ("length", optQ p.length),
      ("length_b", optQ p.length_b),
      ("len_diff", PVal.num p.len_diff),
      ("len_diff_rat", optQ p.len_diff_rat),
      ("cost_coeff", PVal.num p.cost_coeff),
      ("missing_aqi", PVal.bool p.missing_aqi),
      ("missing_noises", PVal.bool p.missing_noises) ]
  { feature_d with properties := props ++ p.noiseProps ++ p.aqiProps }

/-- A concrete edge for tests and witnesses, with both discretized
values equal to `v`. -/
def testEdge (v : ℤ) : PathEdge :=
  { coords := [(0, 0), (1, 1)]
    coords_wgs := [(0, 0), (1, 1)]
    length := 1
    length_b := 1
    noises := some []
    aqi := some 2
    aqi_cl := v
    db_range := v }

/-- A concrete edge with discretized values `v` and length `len`,
used to build distinguishable test edges. -/
def testEdgeL (v : ℤ) (len : ℚ) : PathEdge :=
  { coords := [(0, 0), (1, 1)]
    coords_wgs := [(0, 0), (1, 1)]
    length := len
    length_b := len
    noises := some []
    aqi := some 2
    aqi_cl := v
    db_range := v }

/-- An edge whose noise and aqi values are the no-value marker. -/
def testEdgeMissing : PathEdge :=
  { coords := [(0, 0), (1, 1)]
    coords_wgs := [(0, 0), (1, 1)]
    length := 1
    length_b := 1
    noises := none
    aqi := none
    aqi_cl := 0
    db_range := 0 }

/-- A concrete fresh path over the given edges, as produced by
`Path.init` followed by setting the resolved edge list. -/
def testPath (edges : List PathEdge) : Path :=
  { Path.init 1 [] "p" PathType.clean 0 with edges := edges }

lemma groupScan_acc_append (aq : Bool) :
    ∀ (rest cur : List PathEdge) (gid : ℤ) (acc : List (ℤ × List PathEdge)),
      groupScan aq rest cur gid acc = acc ++ groupScan aq rest cur gid [] := by
  intro rest
  induction rest with
  | nil => intro cur gid acc; simp [groupScan]
  | cons e rest ih =>
    intro cur gid acc
    simp only [groupScan]
    by_cases h : edgeValue aq e = gid
    · simp only [h, if_pos rfl, if_true]
      exact ih (cur ++ [e]) gid acc
    · by_cases hc : cur = []
      · simp only [if_neg h, hc, if_pos rfl, if_true]
        exact ih [e] (edgeValue aq e) acc
      · simp only [if_neg h, if_neg hc, List.nil_append]
        rw [ih [e] (edgeValue aq e) (acc ++ [(gid, cur)]),
          ih [e] (edgeValue aq e) [(gid, cur)]]
        simp [List.append_assoc]

lemma groupScan_flatMap (aq : Bool) :
    ∀ (rest cur : List PathEdge) (gid : ℤ) (acc : List (ℤ × List PathEdge)),
      (groupScan aq rest cur gid acc).flatMap (fun g => g.2) =
        acc.flatMap (fun g => g.2) ++ cur ++ rest := by
  intro rest
  induction rest with
  | nil => intro cur gid acc; simp [groupScan]
  | cons e rest ih =>
    intro cur gid acc
    simp only [groupScan]
    by_cases h : edgeValue aq e = gid
    · simp only [h, if_pos rfl, if_true]
      rw [ih (cur ++ [e]) gid acc]
      simp
    · by_cases hc : cur = []
      · simp only [if_neg h, hc, if_pos rfl, if_true]
        rw [ih [e] (edgeValue aq e) acc]
        simp
      · simp only [if_neg h, if_neg hc]
        rw [ih [e] (edgeValue aq e) (acc ++ [(gid, cur)])]
        simp

/-- Every group of the scan output is homogeneous, given that the
groups already flushed and the current buffer are. -/
lemma groupScan_homog (aq : Bool) :
    ∀ (rest cur : List PathEdge) (gid : ℤ) (acc : List (ℤ × List PathEdge)),
      (∀ g ∈ acc, ∀ e ∈ g.2, edgeValue aq e = g.1) →
      (∀ e ∈ cur, edgeValue aq e = gid) →
      ∀ g ∈ groupScan aq rest cur gid acc, ∀ e ∈ g.2, edgeValue aq e = g.1 := by
  intro rest
  induction rest with
  | nil =>
    intro cur gid acc hacc hcur g hg
    simp only [groupScan, List.mem_append, List.mem_singleton] at hg
    rcases hg with hg | hg
    · exact hacc g hg
    · subst hg; exact hcur
  | cons e rest ih =>
    intro cur gid acc hacc hcur g hg
    simp only [groupScan] at hg
    by_cases h : edgeValue aq e = gid
    · rw [if_pos h] at hg
      refine ih (cur ++ [e]) gid acc hacc ?_ g hg
      intro x hx
      rcases List.mem_append.mp hx with hx | hx
      · exact hcur x hx
      · rcases List.mem_singleton.mp hx with rfl; exact h
    · rw [if_neg h] at hg
      by_cases hc : cur = []
      · rw [if_pos hc] at hg
        refine ih [e] (edgeValue aq e) acc hacc ?_ g hg
        intro x hx; rcases List.mem_singleton.mp hx with rfl; rfl
      · rw [if_neg hc] at hg
        refine ih [e] (edgeValue aq e) (acc ++ [(gid, cur)]) ?_ ?_ g hg
        · intro g' hg'
          rcases List.mem_append.mp hg' with hg' | hg'
          · exact hacc g' hg'
          · rcases List.mem_singleton.mp hg' with rfl; exact hcur
        · intro x hx; rcases List.mem_singleton.mp hx with rfl; rfl

/-- The value-distinctness chain only depends on the group values, not
on the buffered edges of the pending group. -/
lemma chain_ne_snoc {l : List (ℤ × List PathEdge)} {gid : ℤ}
    {cur cur' : List PathEdge}
    (h : List.Chain' (fun a b => a.1 ≠ b.1) (l ++ [(gid, cur)])) :
    List.Chain' (fun a b => a.1 ≠ b.1) (l ++ [(gid, cur')]) := by
  rw [List.chain'_append] at h ⊢
  refine ⟨h.1, List.chain'_singleton _, ?_⟩
  intro x hx y hy
  simp only [List.head?_cons, Option.mem_some_iff] at hy
  subst hy
  exact h.2.2 x hx (gid, cur) (by simp)

/-- Consecutive groups of the scan output have distinct values, given
the invariant that the flushed groups followed by the pending group
form such a chain and that a non-empty buffer is pending whenever any
group was flushed. -/
lemma groupScan_chain (aq : Bool) :
    ∀ (rest cur : List PathEdge) (gid : ℤ) (acc : List (ℤ × List PathEdge)),
      (cur = [] → acc = []) →
      List.Chain' (fun a b => a.1 ≠ b.1) (acc ++ [(gid, cur)]) →
      List.Chain' (fun a b => a.1 ≠ b.1) (groupScan aq rest cur gid acc) := by
  intro rest
  induction rest with
  | nil => intro cur gid acc _ hch; simpa [groupScan] using hch
  | cons e rest ih =>
    intro cur gid acc hemp hch
    simp only [groupScan]
    by_cases h : edgeValue aq e = gid
    · rw [if_pos h]
      exact ih (cur ++ [e]) gid acc (by simp) (chain_ne_snoc hch)
    · rw [if_neg h]
      by_cases hc : cur = []
      · rw [if_pos hc]
        refine ih [e] (edgeValue aq e) acc (by simp) ?_
        rw [hemp hc]
        simp
      · rw [if_neg hc]
        refine ih [e] (edgeValue aq e) (acc ++ [(gid, cur)]) (by simp) ?_
        rw [List.chain'_append]
        refine ⟨hch, List.chain'_singleton _, ?_⟩
        intro x hx y hy
        simp only [List.head?_cons, Option.mem_some_iff] at hy
        subst hy
        rw [List.getLast?_concat] at hx
        simp only [Option.mem_some_iff] at hx
        subst hx
        exact fun hcontra => h hcontra.symm

/-- Every group of the scan output is non-empty, given a non-empty
buffer and non-empty flushed groups. -/
lemma groupScan_nonempty (aq : Bool) :
    ∀ (rest cur : List PathEdge) (gid : ℤ) (acc : List (ℤ × List PathEdge)),
      cur ≠ [] →
      (∀ g ∈ acc, g.2 ≠ []) →
      ∀ g ∈ groupScan aq rest cur gid acc, g.2 ≠ [] := by
  intro rest
  induction rest with
  | nil =>
    intro cur gid acc hcur hacc g hg
    simp only [groupScan, List.mem_append, List.mem_singleton] at hg
    rcases hg with hg | hg
    · exact hacc g hg
    · subst hg; exact hcur
  | cons e rest ih =>
    intro cur gid acc hcur hacc g hg
    simp only [groupScan] at hg
    by_cases h : edgeValue aq e = gid
    · rw [if_pos h] at hg
      exact ih (cur ++ [e]) gid acc (by simp) hacc g hg
    · rw [if_neg h, if_neg hcur] at hg
      refine ih [e] (edgeValue aq e) (acc ++ [(gid, cur)]) (by simp) ?_ g hg
      intro g' hg'
      rcases List.mem_append.mp hg' with hg' | hg'
      · exact hacc g' hg'
      · rcases List.mem_singleton.mp hg' with rfl; exact hcur

/-- Scanning from an empty buffer makes the first edge open the first
group, whatever the sentinel value is. -/
lemma groupScan_nil_cur (aq : Bool) (e : PathEdge) (rest : List PathEdge)
    (gid : ℤ) (acc : List (ℤ × List PathEdge)) :
    groupScan aq (e :: rest) [] gid acc =
      groupScan aq rest [e] (edgeValue aq e) acc := by
  simp only [groupScan]
  by_cases h : edgeValue aq e = gid
  · rw [if_pos h, h]
    simp
  · rw [if_neg h]
    simp

/-- Unpacking a successful call of `aggregate_edge_groups_by_attr`:
the state is unchanged apart from the groups of the scan being
appended to `edge_groups`. -/
lemma aggregate_edge_groups_ok {aq noise : Bool} {p p' : Path}
    (h : p.aggregate_edge_groups_by_attr aq noise = Except.ok p') :
    p' = { p with edge_groups := groupScan aq p.edges [] 0 p.edge_groups } := by
  unfold Path.aggregate_edge_groups_by_attr at h
  split at h
  · exact Except.noConfusion h
  · injection h with h
    exact h.symm

/-- A fold looking a key up skips all entries with other keys. -/
lemma foldl_lookup_absent (k : String) :
    ∀ (l : List (String × PVal)) (acc : Option PVal),
      k ∉ l.map Prod.fst →
      l.foldl (fun acc kv => if kv.1 = k then some kv.2 else acc) acc = acc := by
  intro l
  induction l with
  | nil => intro acc _; rfl
  | cons kv l ih =>
    intro acc h
    simp only [List.map_cons, List.mem_cons] at h
    push_neg at h
    rw [List.foldl_cons, if_neg (fun hc => h.1 hc.symm)]
    exact ih acc h.2

/-- Merging a dict whose keys avoid `k` does not change the lookup of
`k`. -/
lemma dictLookup_append_absent (l1 l2 : List (String × PVal)) (k : String)
    (h : k ∉ l2.map Prod.fst) :
    dictLookup (l1 ++ l2) k = dictLookup l1 k := by
  unfold dictLookup
  rw [List.foldl_append]
  exact foldl_lookup_absent k l2 _ h

/-- C1 (group-concatenation invariant): for a fresh path and either
grouping dimension, concatenating the edge lists of all groups produced
by `aggregate_edge_groups_by_attr`, in order, yields exactly the
original resolved edge list of the path. -/
theorem group_concatenation (aq noise : Bool) (p p' : Path)
    (h0 : p.edge_groups = [])
    (h : p.aggregate_edge_groups_by_attr aq noise = Except.ok p') :
    p'.edge_groups.flatMap (fun g => g.2) = p.edges := by
  rw [aggregate_edge_groups_ok h]
  simp only [h0]
  rw [groupScan_flatMap]
  simp

theorem group_concatenation_witness :
    ({ testPath [testEdgeL 1 1, testEdgeL 2 2] with
        edge_groups :=
          groupScan true [testEdgeL 1 1, testEdgeL 2 2] [] 0 [] } :
        Path).edge_groups.flatMap (fun g => g.2) =
      (testPath [testEdgeL 1 1, testEdgeL 2 2]).edges :=
  group_concatenation true false _ _ rfl rfl

/-- C2 (group homogeneity and maximality): in the output of
`aggregate_edge_groups_by_attr` on a fresh path, every edge within one
group has its discretized value (`aqi_cl` or `db_range`, by dimension)
equal to the group value, and no two consecutive groups share the same
group value. -/
theorem group_homogeneity_maximality (aq noise : Bool) (p p' : Path)
    (h0 : p.edge_groups = [])
    (h : p.aggregate_edge_groups_by_attr aq noise = Except.ok p') :
    (∀ g ∈ p'.edge_groups, ∀ e ∈ g.2,
      (if aq then e.aqi_cl else e.db_range) = g.1) ∧
    List.Chain' (fun a b => a.1 ≠ b.1) p'.edge_groups := by
  rw [aggregate_edge_groups_ok h]
  simp only [h0]
  constructor
  · exact groupScan_homog aq p.edges [] 0 [] (by simp) (by simp)
  · exact groupScan_chain aq p.edges [] 0 [] (fun _ => rfl) (by simp)

theorem group_homogeneity_maximality_witness :
    (∀ g ∈ ({ testPath [testEdgeL 1 1, testEdgeL 2 2] with
        edge_groups :=
          groupScan true [testEdgeL 1 1, testEdgeL 2 2] [] 0 [] } :
        Path).edge_groups, ∀ e ∈ g.2,
      (if true then e.aqi_cl else e.db_range) = g.1) ∧
    List.Chain' (fun a b => a.1 ≠ b.1)
      ({ testPath [testEdgeL 1 1, testEdgeL 2 2] with
        edge_groups :=
          groupScan true [testEdgeL 1 1, testEdgeL 2 2] [] 0 [] } :
        Path).edge_groups :=
  group_homogeneity_maximality true false _ _ rfl rfl

/-- C3 counterexample: on a path with an empty edge list, the final
unconditional append of the scan emits the single group `(0, [])`,
whose edge list is empty — so not every produced group is non-empty. -/
theorem group_nonempty_counterexample :
    Path.aggregate_edge_groups_by_attr true false (testPath []) =
      Except.ok { testPath [] with edge_groups := [(0, [])] } ∧
    ¬ (∀ p' : Path,
        Path.aggregate_edge_groups_by_attr true false (testPath []) =
          Except.ok p' → ∀ g ∈ p'.edge_groups, g.2 ≠ []) := by
  refine ⟨rfl, fun hcl => ?_⟩
  exact hcl { testPath [] with edge_groups := [(0, [])] } rfl
    ((0 : ℤ), ([] : List PathEdge)) (by simp) rfl

/-- C3 amended: the groups produced on a fresh path are contiguous and
order-preserving (their concatenation is the edge list), and they are
all non-empty whenever the edge list is non-empty; a path with an empty
edge list instead yields the single group `(0, [])` with an empty edge
list. -/
theorem group_nonempty_amended (aq noise : Bool) (p p' : Path)
    (h0 : p.edge_groups = [])
    (h : p.aggregate_edge_groups_by_attr aq noise = Except.ok p') :
    p'.edge_groups.flatMap (fun g => g.2) = p.edges ∧
    (p.edges ≠ [] → ∀ g ∈ p'.edge_groups, g.2 ≠ []) ∧
    (p.edges = [] → p'.edge_groups = [(0, [])]) := by
  refine ⟨group_concatenation aq noise p p' h0 h, ?_, ?_⟩
  · intro hne
    rw [aggregate_edge_groups_ok h]
    simp only [h0]
    cases hedges : p.edges with
    | nil => exact absurd hedges hne
    | cons e rest =>
      rw [groupScan_nil_cur]
      exact groupScan_nonempty aq rest [e] (edgeValue aq e) [] (by simp) (by simp)
  · intro hnil
    rw [aggregate_edge_groups_ok h]
    simp [h0, hnil, groupScan]

theorem group_nonempty_amended_witness :
    ({ testPath [testEdgeL 1 1] with
        edge_groups := groupScan true [testEdgeL 1 1] [] 0 [] } :
        Path).edge_groups.flatMap (fun g => g.2) =
      (testPath [testEdgeL 1 1]).edges ∧
    ((testPath [testEdgeL 1 1]).edges ≠ [] →
      ∀ g ∈ ({ testPath [testEdgeL 1 1] with
        edge_groups := groupScan true [testEdgeL 1 1] [] 0 [] } :
        Path).edge_groups, g.2 ≠ []) ∧
    ((testPath [testEdgeL 1 1]).edges = [] →
      ({ testPath [testEdgeL 1 1] with
        edge_groups := groupScan true [testEdgeL 1 1] [] 0 [] } :
        Path).edge_groups = [(0, [])]) :=
  group_nonempty_amended true false _ _ rfl rfl

/-- C4 (selector validation): `aggregate_edge_groups_by_attr` signals
the invalid-argument error exactly when its two boolean selectors are
both true or both false, and succeeds when exactly one is true. -/
theorem selector_validation (aq noise : Bool) (p : Path) :
    ((∃ msg, p.aggregate_edge_groups_by_attr aq noise = Except.error msg) ↔
      ((aq = true ∧ noise = true) ∨ (aq = false ∧ noise = false))) ∧
    (aq ≠ noise →
      ∃ p', p.aggregate_edge_groups_by_attr aq noise = Except.ok p') := by
  cases aq <;> cases noise <;>
    simp [Path.aggregate_edge_groups_by_attr]

/-- C5 (missing-data propagation): after `aggregate_path_attrs`,
`missing_noises` is true iff at least one edge has the no-value noise
marker, and in that case a subsequent `set_noise_attrs` leaves
`noise_attrs` unset; symmetrically for `missing_aqi` / `set_aqi_attrs`.
The external factories are universally quantified. -/
theorem missing_data_propagation (p : Path)
    (hn : p.noise_attrs = none) (ha : p.aqi_attrs = none) :
    (p.aggregate_path_attrs.missing_noises = true ↔
      ∃ e ∈ p.edges, e.noises = none) ∧
    (p.aggregate_path_attrs.missing_aqi = true ↔
      ∃ e ∈ p.edges, e.aqi = none) ∧
    (∀ f db, p.aggregate_path_attrs.missing_noises = true →
      (Path.set_noise_attrs f db p.aggregate_path_attrs).noise_attrs = none) ∧
    (∀ g, p.aggregate_path_attrs.missing_aqi = true →
      (Path.set_aqi_attrs g p.aggregate_path_attrs).aqi_attrs = none) := by
  have hmn : p.aggregate_path_attrs.missing_noises =
      (p.edges.map (·.noises)).contains none := rfl
  have hma : p.aggregate_path_attrs.missing_aqi =
      (p.edges.map (·.aqi)).contains none := rfl
  refine ⟨?_, ?_, ?_, ?_⟩
  · rw [hmn, List.elem_iff, List.mem_map]
  · rw [hma, List.elem_iff, List.mem_map]
  · intro f db hm
    unfold Path.set_noise_attrs
    rw [if_pos hm]
    exact hn
  · intro g hm
    unfold Path.set_aqi_attrs
    rw [if_pos hm]
    exact ha

theorem missing_data_propagation_witness :
    (testPath [testEdgeMissing]).aggregate_path_attrs.missing_noises = true ∧
    (Path.set_noise_attrs (fun _ _ _ => PathNoiseAttrs.mk []) []
      (testPath [testEdgeMissing]).aggregate_path_attrs).noise_attrs = none :=
  ⟨(missing_data_propagation (testPath [testEdgeMissing]) rfl rfl).1.mpr
      ⟨testEdgeMissing, by simp [testPath, Path.init], rfl⟩,
    (missing_data_propagation (testPath [testEdgeMissing]) rfl rfl).2.2.1
      (fun _ _ _ => PathNoiseAttrs.mk []) []
      ((missing_data_propagation (testPath [testEdgeMissing]) rfl rfl).1.mpr
        ⟨testEdgeMissing, by simp [testPath, Path.init], rfl⟩)⟩

/-- C6 (diff attributes and division guard): `set_green_path_diff_attrs`
sets `len_diff` to the 1-digit rounding of the length difference; when
the baseline length is positive it sets `len_diff_rat` to the rounded
percentage, and when the baseline length is 0 it sets `len_diff_rat`
to exactly 0 without any division. -/
theorem diff_ratio_guard
    (nd : PathNoiseAttrs → PathNoiseAttrs → ℚ → PathNoiseAttrs)
    (ad : PathAqiAttrs → PathAqiAttrs → ℚ → PathAqiAttrs)
    (p sp : Path) (l sl : ℚ)
    (hl : p.length = some l) (hsl : sp.length = some sl) :
    (Path.set_green_path_diff_attrs nd ad p sp).len_diff =
      pyround (l - sl) 1 ∧
    (sl > 0 → (Path.set_green_path_diff_attrs nd ad p sp).len_diff_rat =
      some (pyround (pyround (l - sl) 1 / sl * 100) 1)) ∧
    (sl = 0 → (Path.set_green_path_diff_attrs nd ad p sp).len_diff_rat =
      some 0) := by
  unfold Path.set_green_path_diff_attrs
  rw [hl, hsl]
  dsimp only
  refine ⟨rfl, ?_, ?_⟩
  · intro hpos
    rw [if_pos hpos]
  · intro hzero
    rw [if_neg (by rw [hzero]; exact lt_irrefl 0)]

theorem diff_ratio_guard_witness :
    ({ testPath [] with length := some 3 } : Path).length = some 3 ∧
    ({ testPath [] with length := some 0 } : Path).length = some 0 ∧
    (Path.set_green_path_diff_attrs (fun a _ _ => a) (fun a _ _ => a)
      { testPath [] with length := some 3 }
      { testPath [] with length := some 0 }).len_diff_rat = some 0 :=
  ⟨rfl, rfl,
    (diff_ratio_guard (fun a _ _ => a) (fun a _ _ => a)
      { testPath [] with length := some 3 }
      { testPath [] with length := some 0 } 3 0 rfl rfl).2.2 rfl⟩

/-- C7 (length aggregation): `aggregate_path_attrs` sets each length
total to the 2-digit rounding of the sum of the per-edge lengths, the
rounding being applied once to the sum — on a concrete two-edge path
this differs from summing per-edge roundings. -/
theorem length_aggregation :
    (∀ p : Path,
      p.aggregate_path_attrs.length =
        some (pyround ((p.edges.map (·.length)).sum) 2) ∧
      p.aggregate_path_attrs.length_b =
        some (pyround ((p.edges.map (·.length_b)).sum) 2)) ∧
    (testPath [testEdgeL 1 (1/200),
        testEdgeL 1 (1/200)]).aggregate_path_attrs.length ≠
      some (pyround (1/200) 2 + pyround (1/200) 2) := by
  constructor
  · intro p; exact ⟨rfl, rfl⟩
  · intro hcontra
    have h1 : (testPath [testEdgeL 1 (1/200),
        testEdgeL 1 (1/200)]).aggregate_path_attrs.length =
        some (pyround (1/200 + (1/200 + 0)) 2) := rfl
    have h2 : pyround (1/200 + (1/200 + 0)) 2 = 1/100 := by
      norm_num [pyround, roundHalfEven]
    have h3 : pyround (1/200) 2 + pyround (1/200) 2 = 0 := by
      norm_num [pyround, roundHalfEven]
    rw [h1, h2, h3] at hcontra
    have := Option.some.inj hcontra
    norm_num at this

/-- C8 (alternating values): a fresh three-edge path whose discretized
values for the chosen dimension are 1, 2, 1 yields exactly the three
groups `[(1, [e0]), (2, [e1]), (1, [e2])]` — equal but non-contiguous
values are not merged. -/
theorem alternating_values (aq noise : Bool) (p p' : Path)
    (e0 e1 e2 : PathEdge)
    (hedges : p.edges = [e0, e1, e2]) (h0 : p.edge_groups = [])
    (hv0 : edgeValue aq e0 = 1) (hv1 : edgeValue aq e1 = 2)
    (hv2 : edgeValue aq e2 = 1)
    (h : p.aggregate_edge_groups_by_attr aq noise = Except.ok p') :
    p'.edge_groups = [(1, [e0]), (2, [e1]), (1, [e2])] := by
  rw [aggregate_edge_groups_ok h]
  simp only [h0, hedges]
  simp [groupScan, hv0, hv1, hv2]

theorem alternating_values_witness :
    ({ testPath [testEdgeL 1 1, testEdgeL 2 2, testEdgeL 1 3] with
        edge_groups :=
          groupScan true [testEdgeL 1 1, testEdgeL 2 2, testEdgeL 1 3]
            [] 0 [] } : Path).edge_groups =
      [(1, [testEdgeL 1 1]), (2, [testEdgeL 2 2]), (1, [testEdgeL 1 3])] :=
  alternating_values true false _ _ _ _ _ rfl rfl rfl rfl rfl rfl

/-- C9 (no clearing before grouping): `aggregate_edge_groups_by_attr`
appends to the existing `edge_groups`; on a fresh path, a second call
with the same valid selectors yields the group list of the first call
concatenated with itself. -/
theorem groups_append_on_repeat (aq noise : Bool) (p p1 p2 : Path)
    (h0 : p.edge_groups = [])
    (h1 : p.aggregate_edge_groups_by_attr aq noise = Except.ok p1)
    (h2 : p1.aggregate_edge_groups_by_attr aq noise = Except.ok p2) :
    p2.edge_groups = p1.edge_groups ++ p1.edge_groups := by
  have e1 := aggregate_edge_groups_ok h1
  have e2 := aggregate_edge_groups_ok h2
  subst e1
  subst e2
  dsimp only
  rw [h0]
  exact groupScan_acc_append aq p.edges [] 0 (groupScan aq p.edges [] 0 [])

theorem groups_append_on_repeat_witness :
    ({ { testPath [] with edge_groups := groupScan true [] [] 0 [] } with
        edge_groups :=
          groupScan true [] [] 0 (groupScan true [] [] 0 []) } :
        Path).edge_groups =
      ({ testPath [] with edge_groups := groupScan true [] [] 0 [] } :
        Path).edge_groups ++
      ({ testPath [] with edge_groups := groupScan true [] [] 0 [] } :
        Path).edge_groups :=
  groups_append_on_repeat true false _ _ _ rfl rfl rfl

/-- C10 (unset diff ratio is serialized as the none-marker): after
construction `len_diff` is 0 while `len_diff_rat` is the none-marker,
and for any state in which `len_diff_rat` is still the none-marker
(and the external summary property dicts do not shadow the key, as the
spec assumes), `get_as_geojson_feature` emits the none-marker as the
value of the `len_diff_rat` property. -/
theorem init_len_diff_rat_none (n : ℤ) (ids : List ℤ) (nm : String)
    (pt : PathType) (cc : ℚ) :
    (Path.init n ids nm pt cc).len_diff = 0 ∧
    (Path.init n ids nm pt cc).len_diff_rat = none ∧
    (∀ q : Path, q.len_diff_rat = none →
      "len_diff_rat" ∉ q.noiseProps.map Prod.fst →
      "len_diff_rat" ∉ q.aqiProps.map Prod.fst →
      dictLookup (q.get_as_geojson_feature).properties "len_diff_rat" =
        some PVal.null) := by
  refine ⟨rfl, rfl, ?_⟩
  intro q hq hn ha
  unfold Path.get_as_geojson_feature
  dsimp only
  rw [dictLookup_append_absent _ _ _ ha, dictLookup_append_absent _ _ _ hn]
  simp [dictLookup, Path.get_geojson_feature_dict, hq, optQ]

theorem init_len_diff_rat_none_witness :
    dictLookup ((testPath []).get_as_geojson_feature).properties
      "len_diff_rat" = some PVal.null :=
  (init_len_diff_rat_none 1 [] "p" PathType.clean 0).2.2 (testPath []) rfl
    (by simp [Path.noiseProps, testPath, Path.init])
    (by simp [Path.aqiProps, testPath, Path.init])

end HopePath
